import Mathlib

/-!
Shallow embedding of the PBM (Portable Bitmap) reader/writer from `src/pbm.go`.

The wire is a raw byte stream, modelled as `List Nat`.  The encoder `Save`
produces bytes directly: `%c` formats a byte value as the UTF-8 encoding of
that rune (`utf8Encode`), `Fprintln` appends the byte `0x0A`.  The decoder
first splits the stream into lines as `bufio.Scanner` with `ScanLines` does —
split at `0x0A`, strip one trailing `0x0D` per line, return a final
unterminated line (`splitLines`) — then iterates each line's bytes as Go's
`range` over a string does, decoding UTF-8 with the `unicode/utf8` accept
ranges and yielding U+FFFD with single-byte advance on error
(`utf8DecodeLine`).  The line-level core `ReadPBM` takes the resulting
`List (List Char)`; `ReadPBMFile` composes the three stages.  `scanner.Text()`
after the input is exhausted returns the empty string, which the model renders
as `List.getD _ []`.

Go `int` values (`width`, `height`) are modelled as `Int`.  An out-of-range
slice index panics in Go; the mutating operations are therefore modelled as
`Option`-returning functions, `none` standing for the panic.
-/

/-- The `PBM` struct of `src/pbm.go` (lines 9-13): pixel grid, declared
dimensions, and the magic-number tag. -/
structure PBM where
  data : List (List Bool)
  width : Int
  height : Int
  magicNumber : String
  deriving Repr, DecidableEq

instance : DecidableEq (Except String PBM) := fun a b =>
  match a, b with
  | Except.ok x, Except.ok y => decidable_of_iff (x = y) (by simp)
  | Except.error x, Except.error y => decidable_of_iff (x = y) (by simp)
  | Except.ok _, Except.error _ => isFalse (by simp)
  | Except.error _, Except.ok _ => isFalse (by simp)

/-- The white-space table of Go's `fmt` scanner (`fmt/scan.go`, `var space`),
used by every verb's leading-space skipping: U+0009..U+000D, U+0020, U+0085,
U+00A0, U+1680, U+2000..U+200A, U+2028, U+2029, U+202F, U+205F, U+3000. -/
def goIsSpace (c : Char) : Bool :=
  (0x09 ≤ c.toNat && c.toNat ≤ 0x0D) || c.toNat = 0x20 || c.toNat = 0x85 ||
    c.toNat = 0xA0 || c.toNat = 0x1680 || (0x2000 ≤ c.toNat && c.toNat ≤ 0x200A) ||
    c.toNat = 0x2028 || c.toNat = 0x2029 || c.toNat = 0x202F || c.toNat = 0x205F ||
    c.toNat = 0x3000

/-- Skip a run of white space, as `fmt.Sscanf` does before a verb. -/
def skipWs : List Char → List Char
  | [] => []
  | c :: cs => if goIsSpace c then skipWs cs else c :: cs

/-- Consume a maximal run of decimal digits, accumulating their value, and
return the value together with the unconsumed remainder (the digit-run part of
Go's `%d` verb). -/
def parseDigitsAux : List Char → Nat → Nat × List Char
  | [], acc => (acc, [])
  | c :: cs, acc =>
    if c.isDigit then parseDigitsAux cs (10 * acc + (c.toNat - 48)) else (acc, c :: cs)

/-- An unsigned decimal number: at least one digit, maximal munch. -/
def parseNatTok : List Char → Option (Nat × List Char)
  | [] => none
  | c :: cs => if c.isDigit then some (parseDigitsAux cs (c.toNat - 48)) else none

/-- Go's `%d` scanning verb: optional leading white space, optional sign,
then a nonempty digit run; `none` when no integer can be read. -/
def parseIntTok (cs : List Char) : Option (Int × List Char) :=
  match skipWs cs with
  | [] => none
  | c :: rest =>
    if c = '-' then (parseNatTok rest).map (fun p => (-(p.1 : Int), p.2))
    else if c = '+' then (parseNatTok rest).map (fun p => ((p.1 : Int), p.2))
    else (parseNatTok (c :: rest)).map (fun p => ((p.1 : Int), p.2))

/-- Model of `fmt.Sscanf(line, "%d %d", &width, &height)` (line 42 of `src/pbm.go`):
the scan stops at the first verb that fails, and a variable whose verb never
ran keeps its zero value; the error return is discarded by the caller. -/
def sscanf2d (cs : List Char) : Int × Int :=
  match parseIntTok cs with
  | none => (0, 0)
  | some (w, rest) =>
    match parseIntTok rest with
    | none => (w, 0)
    | some (h, _) => (w, h)

/-- P1 row decoding (lines 51-59): `'0'` yields `false`, `'1'` yields `true`,
every other character is skipped. -/
def decodeP1Row : List Char → List Bool
  | [] => []
  | c :: cs =>
    if c = '0' then false :: decodeP1Row cs
    else if c = '1' then true :: decodeP1Row cs
    else decodeP1Row cs

/-- One character of a P4 row expands to 8 pixels, most significant bit first
(lines 62-67: `j` runs from 7 down to 0, pixel `k` is bit `7-k`). -/
def unpackByte (c : Char) : List Bool :=
  (List.range 8).map (fun j => c.toNat >>> (7 - j) &&& 1 = 1)

/-- P4 row decoding (lines 60-68): every character of the line contributes its
8 bits. -/
def decodeP4Row (cs : List Char) : List Bool :=
  cs.flatMap unpackByte

/-- The function `ReadPBM` (lines 16-79) with the file-opening glue stripped: the source is
the list of lines.  Line 0 is the magic number, line 1 the dimensions, and the
loop reads `height` further lines (a line past the end of the input reads as
empty, exactly as `scanner.Text()` after `Scan` has failed). -/
def ReadPBM (lines : List (List Char)) : Except String PBM :=
  let magic := String.mk (lines.getD 0 [])
  let body : Bool → PBM := fun isP1 =>
    let wh := sscanf2d (lines.getD 1 [])
    { data := (List.range wh.2.toNat).map (fun i =>
        let line := lines.getD (2 + i) []
        if isP1 then decodeP1Row line else decodeP4Row line),
      width := wh.1, height := wh.2, magicNumber := magic }
  if magic = "P1" then Except.ok (body true)
  else if magic = "P4" then Except.ok (body false)
  else Except.error ("unsupported PBM format: " ++ magic)

/-- Decimal digits of `n`, most significant first, as written by `fmt`'s `%d`
verb for a non-negative value. -/
def natChars (n : Nat) : List Char :=
  if h : n < 10 then [Char.ofNat (48 + n)]
  else natChars (n / 10) ++ [Char.ofNat (48 + n % 10)]
  termination_by n
  decreasing_by exact Nat.div_lt_self (by omega) (by omega)

/-- Output of `%d` on a Go `int`: a minus sign followed by the magnitude for negative
values, plain digits otherwise. -/
def intChars (n : Int) : List Char :=
  if n < 0 then '-' :: natChars n.natAbs else natChars n.toNat

/-- The second header line `"<width> <height>"` written by
`fmt.Fprintf(writer, "%s\n%d %d\n", ...)` (line 107). -/
def dimsLine (w h : Int) : List Char :=
  intChars w ++ ' ' :: intChars h

/-- P1 row encoding (lines 113-119): every pixel becomes `"1 "` or `"0 "`. -/
def encodeP1Row (row : List Bool) : List Char :=
  row.flatMap (fun p => if p then ['1', ' '] else ['0', ' '])

/-- Pack up to 8 pixels into one byte value, most significant bit first
(lines 123-128); a position beyond the chunk contributes no set bit. -/
def packByte (bits : List Bool) : Nat :=
  (List.range 8).foldl
    (fun acc j => if bits.getD j false then acc ||| (1 <<< (7 - j)) else acc) 0

/-- The successive 8-element chunks of a row, as cut by the loop
`for i := 0; i < len(row); i += 8` (line 122). -/
def chunks8 (l : List Bool) : List (List Bool) :=
  if l = [] then [] else l.take 8 :: chunks8 (l.drop 8)
  termination_by l.length
  decreasing_by
    simp only [List.length_drop]
    rename_i h
    have : l.length ≠ 0 := fun hn => h (List.eq_nil_of_length_eq_zero hn)
    omega

/-- P4 row encoding (lines 121-130): each 8-pixel chunk becomes one character,
written with the `%c` verb. -/
def encodeP4Row (row : List Bool) : List Char :=
  (chunks8 row).map (fun c => Char.ofNat (packByte c))

/-- UTF-8 encoding of a code point, as Go's `fmt` emits it for `%c` and `%s`
(an invalid code point would print U+FFFD instead, which never arises here:
`%c` is only applied to byte values and `%s` to valid strings). -/
def utf8Encode (r : Nat) : List Nat :=
  if r < 0x80 then [r]
  else if r < 0x800 then [0xC0 + r / 0x40, 0x80 + r % 0x40]
  else if r < 0x10000 then [0xE0 + r / 0x1000, 0x80 + r / 0x40 % 0x40, 0x80 + r % 0x40]
  else [0xF0 + r / 0x40000, 0x80 + r / 0x1000 % 0x40, 0x80 + r / 0x40 % 0x40, 0x80 + r % 0x40]

/-- The bytes a sequence of characters occupies on the wire. -/
def charsBytes (l : List Char) : List Nat :=
  l.flatMap (fun c => utf8Encode c.toNat)

/-- The method `Save` (lines 96-136) with the file glue stripped, at the level
of the raw bytes written: `fmt.Fprintf(w, "%s\n%d %d\n", ...)` emits the tag's
bytes, a newline, the dimensions line's bytes and a newline; then each row is
the UTF-8 bytes of the characters the chosen branch writes (each `%c` of a
packed byte value emits that rune's UTF-8, one or two bytes), closed by
`Fprintln`'s newline.  The branch on `pbm.magicNumber == "P1"` is taken inside
the row loop (line 111). -/
def Save (pbm : PBM) : List Nat :=
  charsBytes pbm.magicNumber.data ++ 10 :: charsBytes (dimsLine pbm.width pbm.height)
    ++ 10 :: (pbm.data.map (fun row =>
        charsBytes (if pbm.magicNumber = "P1" then encodeP1Row row else encodeP4Row row)
          ++ [10])).flatten

/-- The accessor `At` (lines 87-89): `pbm.data[y][x]`, with the index panic modelled as
`none` (a negative Go index also panics and has no `Nat` counterpart). -/
def At (pbm : PBM) (x y : Nat) : Option Bool :=
  (pbm.data[y]?).bind (fun r => r[x]?)

/-- The method `SetMagicNumber` (lines 164-166): overwrite the tag, touch nothing else. -/
def SetMagicNumber (pbm : PBM) (magicNumber : String) : PBM :=
  { pbm with magicNumber := magicNumber }

/-- One step of the `Invert` inner loop on a row:
`row[x] = !row[x]`, `none` when `x` is out of range. -/
def invRowStep (r : List Bool) (x : Nat) : Option (List Bool) :=
  (r[x]?).map (fun v => r.set x (!v))

/-- One step of the swap loops of `Flip` (within a row, `n = width`) and `Flop`
(on the row list, `n = height`): `l[x], l[n-x-1] = l[n-x-1], l[x]`. -/
def swapStep {α : Type} (n : Nat) (l : List α) (x : Nat) : Option (List α) :=
  (l[x]?).bind (fun a => (l[n - x - 1]?).map (fun b => (l.set x b).set (n - x - 1) a))

/-- Lift a row-transforming loop step to the grid at row `y`: read
`data[y]`, act on it, store the result back at `y` (the shape of
`pbm.data[y][...] = ...` inside a loop over `x`). -/
def liftStep (g : List Bool → Nat → Option (List Bool)) (y : Nat)
    (st : List (List Bool)) (x : Nat) : Option (List (List Bool)) :=
  (st[y]?).bind (fun row => (g row x).map (st.set y ·))

/-- The method `Invert` (lines 139-145): for `y` in `[0, height)` and `x` in `[0, width)`,
`pbm.data[y][x] = !pbm.data[y][x]`; an index panic is `none`.  A negative
bound makes the corresponding loop run zero times, hence `Int.toNat`. -/
def Invert (pbm : PBM) : Option PBM :=
  ((List.range pbm.height.toNat).foldlM
      (fun st y => (List.range pbm.width.toNat).foldlM (liftStep invRowStep y) st)
      pbm.data).map
    (fun d => { pbm with data := d })

/-- The method `Flip` (lines 148-154): for `y` in `[0, height)` and `x` in
`[0, width/2)`, swap `data[y][x]` with `data[y][width-x-1]`.  For an `Int`
width, `(width/2).toNat = width.toNat / 2` and the inner indices are the
`Nat` versions whenever the loop body runs at all. -/
def Flip (pbm : PBM) : Option PBM :=
  ((List.range pbm.height.toNat).foldlM
      (fun st y =>
        (List.range (pbm.width.toNat / 2)).foldlM
          (liftStep (swapStep pbm.width.toNat) y) st)
      pbm.data).map
    (fun d => { pbm with data := d })

/-- The method `Flop` (lines 157-161): for `y` in `[0, height/2)`, swap row `y` with row
`height-y-1`. -/
def Flop (pbm : PBM) : Option PBM :=
  ((List.range (pbm.height.toNat / 2)).foldlM (swapStep pbm.height.toNat) pbm.data).map
    (fun d => { pbm with data := d })

/-- The dimension invariant of §3 of the specification: the grid really has
`height` rows, each of length `width`. -/
def WF (B : PBM) : Prop :=
  (B.data.length : Int) = B.height ∧ ∀ r ∈ B.data, (r.length : Int) = B.width

instance : DecidablePred WF := fun B => by
  unfold WF; infer_instance

/-! ### List helpers -/

theorem list_set_self {α : Type} (l : List α) (i : Nat) (h : i < l.length) :
    l.set i l[i] = l := by
  apply List.ext_getElem?
  intro n
  rw [List.getElem?_set]
  split
  · rename_i hin
    subst hin
    simp [h, List.getElem?_eq_getElem h]
  · rfl

theorem list_set_append_len {α : Type} (l₁ l₂ : List α) (a : α) :
    (l₁ ++ l₂).set l₁.length a = l₁ ++ l₂.set 0 a := by
  induction l₁ with
  | nil => rfl
  | cons c cs ih => simp [List.set, ih]

theorem list_set_append {α : Type} (l₁ l₂ : List α) (a : α) (i : Nat)
    (h : i = l₁.length) : (l₁ ++ l₂).set i a = l₁ ++ l₂.set 0 a := by
  subst h
  exact list_set_append_len l₁ l₂ a

/-! ### Loop characterizations -/

theorem lift_fold (g : List Bool → Nat → Option (List Bool)) (y : Nat) :
    ∀ (xs : List Nat) (st : List (List Bool)) (r : List Bool), st[y]? = some r →
      xs.foldlM (liftStep g y) st = (xs.foldlM g r).map (st.set y ·) := by
  intro xs
  induction xs with
  | nil =>
    intro st r hy
    obtain ⟨hlt, hr⟩ := List.getElem?_eq_some.mp hy
    simp only [List.foldlM_nil, Option.pure_def, Option.map_some']
    rw [← hr, list_set_self st y hlt]
  | cons x xs ih =>
    intro st r hy
    have hlt : y < st.length := (List.getElem?_eq_some.mp hy).1
    simp only [List.foldlM_cons, liftStep, hy, Option.bind_eq_bind, Option.some_bind]
    cases hx : g r x with
    | none => simp
    | some r' =>
      simp only [Option.map_some', Option.some_bind]
      have hy' : (st.set y r')[y]? = some r' := by
        rw [List.getElem?_set]
        simp [hlt]
      rw [ih (st.set y r') r' hy']
      cases xs.foldlM g r' <;> simp [List.set_set]

theorem inv_fold_aux (r : List Bool) :
    ∀ k, k ≤ r.length →
      ∃ r', (List.range k).foldlM invRowStep r = some r' ∧ r'.length = r.length ∧
        ∀ i, r'[i]? = if i < k then (r[i]?).map (fun b => !b) else r[i]? := by
  intro k
  induction k with
  | zero => exact fun _ => ⟨r, by simp⟩
  | succ k ih =>
    intro hk
    obtain ⟨r', h1, h2, h3⟩ := ih (by omega)
    have hkr : k < r.length := by omega
    have hrk : r'[k]? = some r[k] := by
      rw [h3 k]
      simp [List.getElem?_eq_getElem hkr]
    refine ⟨r'.set k (!r[k]), ?_, by simp [h2], ?_⟩
    · rw [List.range_succ, List.foldlM_append, h1]
      simp only [Option.bind_eq_bind, Option.some_bind, List.foldlM_cons, List.foldlM_nil]
      simp [invRowStep, hrk]
    · intro i
      rw [List.getElem?_set]
      by_cases hik : k = i
      · subst hik
        simp [h2, hkr, List.getElem?_eq_getElem hkr]
      · rw [h3 i]
        have : (i < k) = (i < k + 1) := by
          apply propext; constructor <;> intro <;> omega
        simp [if_neg hik, this]

theorem inv_fold (r : List Bool) :
    (List.range r.length).foldlM invRowStep r = some (r.map (fun b => !b)) := by
  obtain ⟨r', h1, h2, h3⟩ := inv_fold_aux r r.length (le_refl _)
  rw [h1]
  congr 1
  apply List.ext_getElem?
  intro i
  rw [h3 i, List.getElem?_map]
  split
  · rfl
  · rename_i h
    rw [List.getElem?_eq_none (by omega)]
    rfl

theorem swap_fold_aux {α : Type} (n : Nat) (l : List α) (hl : l.length = n) :
    ∀ k, k ≤ n / 2 →
      ∃ l', (List.range k).foldlM (swapStep n) l = some l' ∧ l'.length = n ∧
        ∀ i, i < n →
          l'[i]? = if i < k ∨ n - k ≤ i then l[n - 1 - i]? else l[i]? := by
  intro k
  induction k with
  | zero =>
    intro _
    refine ⟨l, by simp, hl, ?_⟩
    intro i hi
    rw [if_neg (by omega)]
  | succ k ih =>
    intro hk
    obtain ⟨l', h1, h2, h3⟩ := ih (by omega)
    have hkn : 2 * k + 2 ≤ n := by omega
    have hka : l'[k]? = l[k]? := by
      rw [h3 k (by omega)]
      rw [if_neg (by omega)]
    have hkb : l'[n - k - 1]? = l[n - k - 1]? := by
      rw [h3 (n - k - 1) (by omega)]
      rw [if_neg (by omega)]
    cases ha : l[k]? with
    | none =>
      rw [List.getElem?_eq_none_iff] at ha
      omega
    | some a =>
    cases hb : l[n - k - 1]? with
    | none =>
      rw [List.getElem?_eq_none_iff] at hb
      omega
    | some b =>
    refine ⟨(l'.set k b).set (n - k - 1) a, ?_, by simp [h2], ?_⟩
    · rw [List.range_succ, List.foldlM_append, h1]
      simp only [Option.bind_eq_bind, Option.some_bind, List.foldlM_cons, List.foldlM_nil]
      simp [swapStep, hka, hkb, ha, hb]
    · intro i hi
      rw [List.getElem?_set, List.getElem?_set]
      by_cases hib : n - k - 1 = i
      · rw [if_pos hib]
        rw [if_pos (by simp [h2]; omega)]
        rw [if_pos (by omega : i < k + 1 ∨ n - (k + 1) ≤ i)]
        have : n - 1 - i = k := by omega
        rw [this, ha]
      · rw [if_neg hib]
        by_cases hia : k = i
        · subst hia
          rw [if_pos rfl]
          rw [if_pos (by omega : k < l'.length)]
          rw [if_pos (by omega : k < k + 1 ∨ n - (k + 1) ≤ k)]
          have : n - 1 - k = n - k - 1 := by omega
          rw [this, hb]
        · rw [if_neg hia, h3 i hi]
          by_cases hc : i < k ∨ n - k ≤ i
          · rw [if_pos hc, if_pos (by omega : i < k + 1 ∨ n - (k + 1) ≤ i)]
          · rw [if_neg hc, if_neg (by omega : ¬(i < k + 1 ∨ n - (k + 1) ≤ i))]

theorem swap_fold {α : Type} (n : Nat) (l : List α) (hl : l.length = n) :
    (List.range (n / 2)).foldlM (swapStep n) l = some l.reverse := by
  obtain ⟨l', h1, h2, h3⟩ := swap_fold_aux n l hl (n / 2) (le_refl _)
  rw [h1]
  congr 1
  apply List.ext_getElem?
  intro i
  by_cases hi : i < n
  · rw [h3 i hi]
    have hrev : l.reverse[i]? = l[l.length - 1 - i]? :=
      List.getElem?_reverse (by omega)
    rw [hl] at hrev
    by_cases hc : i < n / 2 ∨ n - n / 2 ≤ i
    · rw [if_pos hc, hrev]
    · rw [if_neg hc, hrev]
      have : n - 1 - i = i := by omega
      rw [this]
  · have ha : l'[i]? = none := List.getElem?_eq_none (by omega)
    have hb : l.reverse[i]? = none := List.getElem?_eq_none (by simp; omega)
    rw [ha, hb]

theorem outer_fold (xs : List Nat) (g : List Bool → Nat → Option (List Bool))
    (F : List Bool → List Bool) (d : List (List Bool))
    (hF : ∀ r ∈ d, xs.foldlM g r = some (F r)) :
    ∀ n, n ≤ d.length →
      (List.range n).foldlM (fun st y => xs.foldlM (liftStep g y) st) d
        = some ((d.take n).map F ++ d.drop n) := by
  intro n
  induction n with
  | zero => simp
  | succ n ih =>
    intro hn
    have hnd : n < d.length := by omega
    rw [List.range_succ, List.foldlM_append, ih (by omega)]
    simp only [Option.bind_eq_bind, Option.some_bind, List.foldlM_cons, List.foldlM_nil]
    have hlen : ((d.take n).map F).length = n := by
      simp [List.length_take]
      omega
    have hprev : ((d.take n).map F ++ d.drop n)[n]? = some d[n] := by
      rw [List.getElem?_append_right (by omega), hlen]
      simp [List.getElem?_drop, List.getElem?_eq_getElem hnd]
    rw [lift_fold g n xs _ _ hprev, hF d[n] (List.getElem_mem hnd)]
    simp only [Option.map_some', Option.bind_some, Option.pure_def]
    congr 1
    rw [list_set_append _ _ _ n hlen.symm, ← List.getElem_cons_drop d n hnd]
    simp only [List.set]
    rw [List.take_succ, List.getElem?_eq_getElem hnd]
    simp only [Option.toList_some, List.map_append, List.map_cons, List.map_nil,
      List.append_assoc, List.singleton_append, List.nil_append]

/-! ### The three mutating operations under the dimension invariant -/

theorem Invert_eq (B : PBM) (h : WF B) :
    Invert B = some { B with data := B.data.map (fun r => r.map (fun b => !b)) } := by
  obtain ⟨hh, hw⟩ := h
  have hh' : B.height.toNat = B.data.length := by omega
  have hF : ∀ r ∈ B.data,
      (List.range B.width.toNat).foldlM invRowStep r = some (r.map (fun b => !b)) := by
    intro r hr
    have hrl : B.width.toNat = r.length := by
      have := hw r hr
      omega
    rw [hrl]
    exact inv_fold r
  have hof := outer_fold _ invRowStep _ B.data hF B.data.length (le_refl _)
  unfold Invert
  rw [hh', hof]
  simp

theorem Flip_eq (B : PBM) (h : WF B) :
    Flip B = some { B with data := B.data.map List.reverse } := by
  obtain ⟨hh, hw⟩ := h
  have hh' : B.height.toNat = B.data.length := by omega
  have hF : ∀ r ∈ B.data,
      (List.range (B.width.toNat / 2)).foldlM (swapStep B.width.toNat) r
        = some r.reverse := by
    intro r hr
    have hrl : r.length = B.width.toNat := by
      have := hw r hr
      omega
    exact swap_fold _ r hrl
  have hof := outer_fold _ (swapStep B.width.toNat) _ B.data hF B.data.length (le_refl _)
  unfold Flip
  rw [hh', hof]
  simp

theorem Flop_eq (B : PBM) (h : WF B) :
    Flop B = some { B with data := B.data.reverse } := by
  obtain ⟨hh, _⟩ := h
  have hh' : B.height.toNat = B.data.length := by omega
  unfold Flop
  rw [hh', swap_fold B.data.length B.data rfl]
  rfl

theorem WF_map (B : PBM) (f : List Bool → List Bool)
    (hf : ∀ r, (f r).length = r.length) (h : WF B) :
    WF { B with data := B.data.map f } := by
  obtain ⟨hh, hw⟩ := h
  constructor
  · simpa using hh
  · intro r hr
    rw [List.mem_map] at hr
    obtain ⟨a, ha, rfl⟩ := hr
    rw [hf a]
    exact hw a ha

theorem WF_reverse_rows (B : PBM) (h : WF B) : WF { B with data := B.data.reverse } := by
  obtain ⟨hh, hw⟩ := h
  constructor
  · simpa using hh
  · intro r hr
    exact hw r (List.mem_reverse.mp hr)

theorem map_not_not (r : List Bool) : (r.map (fun b => !b)).map (fun b => !b) = r := by
  induction r with
  | nil => rfl
  | cons b bs ih => simp [ih]

theorem flatten_map_reverse_perm (d : List (List Bool)) :
    (d.map List.reverse).flatten.Perm d.flatten := by
  induction d with
  | nil => simp
  | cons r rs ih =>
    simp only [List.map_cons, List.flatten_cons]
    exact List.Perm.append (List.reverse_perm r) ih

/-! ### Printing and re-parsing decimal numbers -/

/-- C2: packing `[true,false,true,false,false,false,false,false]` MSB-first
as the encoder does for one 8-pixel chunk gives the byte value `0xA0 = 160`
(and one output character), and decoding a packed row consisting of that
single byte reproduces exactly that 8-element sequence. -/
theorem claim_C2_bitpack :
    packByte [true, false, true, false, false, false, false, false] = 160 ∧
    encodeP4Row [true, false, true, false, false, false, false, false]
      = [Char.ofNat 160] ∧
    decodeP4Row [Char.ofNat 160]
      = [true, false, true, false, false, false, false, false] := by
  refine ⟨by decide, ?_, by decide⟩
  unfold encodeP4Row
  rw [chunks8, if_neg (by decide)]
  rw [chunks8]
  simp only [if_pos rfl, List.map_cons, List.map_nil, List.take_nil, List.drop_nil]
  decide

/-- C3: a source whose first line is neither `"P1"` nor `"P4"` is rejected
with the unsupported-format error no matter what the remaining lines contain
(so no row line is consumed), and no bitmap is produced. -/
theorem claim_C3_bad_magic (ml : List Char) (rest : List (List Char))
    (h1 : String.mk ml ≠ "P1") (h4 : String.mk ml ≠ "P4") :
    ReadPBM (ml :: rest) = Except.error ("unsupported PBM format: " ++ String.mk ml) := by
  unfold ReadPBM
  simp only [List.getD_cons_zero]
  rw [if_neg h1, if_neg h4]

theorem claim_C3_witness :
    (String.mk "P2".data ≠ "P1" ∧ String.mk "P2".data ≠ "P4") ∧
    ReadPBM ("P2".data :: ["3 2".data, "101".data, "010".data])
      = Except.error ("unsupported PBM format: " ++ String.mk "P2".data) :=
  ⟨⟨by decide, by decide⟩,
    claim_C3_bad_magic "P2".data ["3 2".data, "101".data, "010".data]
      (by decide) (by decide)⟩

/-- C4 is false as stated: on the source `P1` / `5 x` the second line does
not parse as two integers, yet decoding succeeds with `width = 5` (the first
`%d` verb succeeded before the malformation), not `width = 0`. -/
theorem claim_C4_counterexample :
    ReadPBM ["P1".data, ['5', ' ', 'x']]
      = Except.ok { data := [], width := 5, height := 0, magicNumber := "P1" } ∧
    (5 : Int) ≠ 0 := by
  refine ⟨by decide, by decide⟩

/-- C4 (amended): a malformed second line never makes decoding fail; a
dimension keeps its zero default exactly when its own `%d` verb never
succeeded, so a second line with no leading parseable integer yields
`width = 0` and `height = 0` (while a line like `5 x` keeps the parsed
`width = 5`). -/
theorem claim_C4_amended (ml dl : List Char) (rest : List (List Char))
    (hm : String.mk ml = "P1" ∨ String.mk ml = "P4") :
    (∃ C, ReadPBM (ml :: dl :: rest) = Except.ok C) ∧
    (parseIntTok dl = none →
      ∃ C, ReadPBM (ml :: dl :: rest) = Except.ok C ∧
        C.width = 0 ∧ C.height = 0 ∧ C.data = []) := by
  have hs : ∀ _ : parseIntTok dl = none, sscanf2d dl = (0, 0) := by
    intro hp
    unfold sscanf2d
    rw [hp]
  unfold ReadPBM
  simp only [List.getD_cons_zero, List.getD_cons_succ]
  rcases hm with h | h <;> rw [h]
  · rw [if_pos rfl]
    refine ⟨⟨_, rfl⟩, fun hp => ⟨_, rfl, ?_, ?_, ?_⟩⟩ <;> simp [hs hp]
  · rw [if_neg (by decide), if_pos rfl]
    refine ⟨⟨_, rfl⟩, fun hp => ⟨_, rfl, ?_, ?_, ?_⟩⟩ <;> simp [hs hp]

theorem claim_C4_witness :
    (String.mk "P4".data = "P1" ∨ String.mk "P4".data = "P4") ∧
    parseIntTok "x y".data = none ∧
    (∃ C, ReadPBM ("P4".data :: "x y".data :: []) = Except.ok C ∧
      C.width = 0 ∧ C.height = 0 ∧ C.data = []) :=
  ⟨by decide, by decide,
    (claim_C4_amended "P4".data "x y".data [] (by decide)).2 (by decide)⟩

/-- C6: on any bitmap satisfying the dimension invariant, `Invert` negates
every pixel of the row grid and changes nothing else (same dimensions, same
format tag), and applying it twice restores the original bitmap.  (On a grid
that violates the invariant the Go loop panics, modelled here as `none`.) -/
theorem claim_C6_invert (B : PBM) (h : WF B) :
    Invert B = some { B with data := B.data.map (fun r => r.map (fun b => !b)) } ∧
    (Invert B).bind Invert = some B := by
  have h1 := Invert_eq B h
  refine ⟨h1, ?_⟩
  rw [h1, Option.some_bind]
  have h2 : WF { B with data := B.data.map (fun r => r.map (fun b => !b)) } :=
    WF_map B _ (fun r => by simp) h
  rw [Invert_eq _ h2]
  congr 1
  show ({ B with data :=
      (B.data.map (fun r => r.map (fun b => !b))).map (fun r => r.map (fun b => !b)) } : PBM)
    = B
  rw [List.map_map]
  have hdd : B.data.map
        ((fun r : List Bool => r.map (fun b => !b)) ∘ fun r : List Bool => r.map (fun b => !b))
      = B.data := by
    have h4 : B.data.map
          ((fun r : List Bool => r.map (fun b => !b)) ∘ fun r : List Bool => r.map (fun b => !b))
        = B.data.map id :=
      List.map_congr_left (fun r _ => map_not_not r)
    rw [h4, List.map_id]
  rw [hdd]

theorem claim_C6_witness :
    WF (⟨[[true, false]], 2, 1, "P1"⟩ : PBM) ∧
    (Invert (⟨[[true, false]], 2, 1, "P1"⟩ : PBM)).bind Invert
      = some (⟨[[true, false]], 2, 1, "P1"⟩ : PBM) :=
  ⟨by decide, (claim_C6_invert _ (by decide)).2⟩

/-- C7: on any bitmap satisfying the dimension invariant, flipping twice
restores the bitmap exactly, and for odd `width` a single `Flip` leaves the
pixel values of the middle column (index `width/2` rounded down) unchanged. -/
theorem claim_C7_flip (B : PBM) (h : WF B) :
    (Flip B).bind Flip = some B ∧
    (B.width % 2 = 1 →
      ∃ C, Flip B = some C ∧
        ∀ y, At C (B.width.toNat / 2) y = At B (B.width.toNat / 2) y) := by
  have h1 := Flip_eq B h
  constructor
  · rw [h1, Option.some_bind]
    have h2 : WF { B with data := B.data.map List.reverse } :=
      WF_map B _ (fun r => by simp) h
    rw [Flip_eq _ h2]
    congr 1
    show ({ B with data := (B.data.map List.reverse).map List.reverse } : PBM) = B
    rw [List.map_map]
    have hdd : B.data.map ((List.reverse : List Bool → List Bool) ∘ List.reverse)
        = B.data := by
      have h4 : B.data.map ((List.reverse : List Bool → List Bool) ∘ List.reverse)
          = B.data.map id :=
        List.map_congr_left (fun r _ => List.reverse_reverse r)
      rw [h4, List.map_id]
    rw [hdd]
  · intro hodd
    refine ⟨_, h1, ?_⟩
    intro y
    unfold At
    show ((B.data.map List.reverse)[y]?).bind (fun r => r[B.width.toNat / 2]?)
        = (B.data[y]?).bind (fun r => r[B.width.toNat / 2]?)
    rw [List.getElem?_map]
    cases hy : B.data[y]? with
    | none => rfl
    | some r =>
      simp only [Option.map_some', Option.some_bind]
      obtain ⟨hlt, hr⟩ := List.getElem?_eq_some.mp hy
      have hrmem : r ∈ B.data := by
        rw [← hr]
        exact List.getElem_mem hlt
      have hrl := h.2 r hrmem
      have hm2 : B.width.toNat / 2 < r.length := by omega
      rw [List.getElem?_reverse hm2]
      have hmid : r.length - 1 - B.width.toNat / 2 = B.width.toNat / 2 := by omega
      rw [hmid]

theorem claim_C7_witness :
    (WF (⟨[[true, true, false]], 3, 1, "P1"⟩ : PBM) ∧
      (⟨[[true, true, false]], 3, 1, "P1"⟩ : PBM).width % 2 = 1) ∧
    (Flip (⟨[[true, true, false]], 3, 1, "P1"⟩ : PBM)).bind Flip
      = some (⟨[[true, true, false]], 3, 1, "P1"⟩ : PBM) :=
  ⟨⟨by decide, by decide⟩, (claim_C7_flip _ (by decide)).1⟩

/-- C8: on any bitmap satisfying the dimension invariant, each of
`Invert`, `Flip` and `Flop` succeeds, preserves the invariant exactly (same
`height`, every row still of length `width`, same tag), and only negates the
pixels element-wise (`Invert`) or permutes the pixel multiset (`Flip`,
`Flop`). -/
theorem claim_C8_invariants (B : PBM) (h : WF B) :
    ∃ Bi Bf Bp, Invert B = some Bi ∧ Flip B = some Bf ∧ Flop B = some Bp ∧
      WF Bi ∧ WF Bf ∧ WF Bp ∧
      Bi.width = B.width ∧ Bi.height = B.height ∧ Bi.magicNumber = B.magicNumber ∧
      Bf.width = B.width ∧ Bf.height = B.height ∧ Bf.magicNumber = B.magicNumber ∧
      Bp.width = B.width ∧ Bp.height = B.height ∧ Bp.magicNumber = B.magicNumber ∧
      Bi.data = B.data.map (fun r => r.map (fun b => !b)) ∧
      Bf.data.flatten.Perm B.data.flatten ∧
      Bp.data.flatten.Perm B.data.flatten :=
  ⟨_, _, _, Invert_eq B h, Flip_eq B h, Flop_eq B h,
    WF_map B _ (fun r => by simp) h, WF_map B _ (fun r => by simp) h,
    WF_reverse_rows B h,
    rfl, rfl, rfl, rfl, rfl, rfl, rfl, rfl, rfl, rfl,
    flatten_map_reverse_perm B.data,
    (List.reverse_perm B.data).flatten⟩

theorem claim_C8_witness :
    WF (⟨[[true, false], [false, false]], 2, 2, "P4"⟩ : PBM) ∧
    (∃ Bi Bf Bp,
      Invert (⟨[[true, false], [false, false]], 2, 2, "P4"⟩ : PBM) = some Bi ∧
      Flip (⟨[[true, false], [false, false]], 2, 2, "P4"⟩ : PBM) = some Bf ∧
      Flop (⟨[[true, false], [false, false]], 2, 2, "P4"⟩ : PBM) = some Bp ∧
      WF Bi ∧ WF Bf ∧ WF Bp ∧
      Bi.width = (2 : Int) ∧ Bi.height = (2 : Int) ∧ Bi.magicNumber = "P4" ∧
      Bf.width = (2 : Int) ∧ Bf.height = (2 : Int) ∧ Bf.magicNumber = "P4" ∧
      Bp.width = (2 : Int) ∧ Bp.height = (2 : Int) ∧ Bp.magicNumber = "P4" ∧
      Bi.data = ([[true, false], [false, false]] : List (List Bool)).map
        (fun r => r.map (fun b => !b)) ∧
      Bf.data.flatten.Perm ([[true, false], [false, false]] : List (List Bool)).flatten ∧
      Bp.data.flatten.Perm ([[true, false], [false, false]] : List (List Bool)).flatten) :=
  ⟨by decide, claim_C8_invariants _ (by decide)⟩

/-- C10: the encoder dispatches solely on the tag being `"P1"`: any bitmap
whose tag is any other string has that tag's bytes written verbatim at the
head of the output, followed by the dimensions line and every row serialized
by the packed-binary branch; `SetMagicNumber` accepts any string without
validation and touches neither the pixel data nor the dimensions. -/
theorem claim_C10_save_dispatch (B : PBM) (m : String) (hm : m ≠ "P1") :
    Save (SetMagicNumber B m)
      = charsBytes m.data ++ 10 :: charsBytes (dimsLine B.width B.height)
        ++ 10 :: (B.data.map (fun r => charsBytes (encodeP4Row r) ++ [10])).flatten ∧
    (SetMagicNumber B m).data = B.data ∧ (SetMagicNumber B m).width = B.width ∧
    (SetMagicNumber B m).height = B.height ∧ (SetMagicNumber B m).magicNumber = m := by
  refine ⟨?_, rfl, rfl, rfl, rfl⟩
  unfold Save SetMagicNumber
  simp [hm]

theorem claim_C10_witness :
    ("P7" ≠ "P1") ∧
    Save (SetMagicNumber (⟨[[true, true, false, false, false, false, false, false]],
        8, 1, "P4"⟩ : PBM) "P7")
      = charsBytes "P7".data ++ 10 :: charsBytes (dimsLine 8 1)
        ++ 10 :: (([[true, true, false, false, false, false, false, false]] :
            List (List Bool)).map (fun r => charsBytes (encodeP4Row r) ++ [10])).flatten :=
  ⟨by decide, (claim_C10_save_dispatch _ "P7" (by decide)).1⟩
